import Mathlib

/-!
Verification development for the VisionTransformer repository
(`src/PVT/pvt.py`, `src/model.py`, `src/ViT/train.py`).

The TensorFlow layers are shallowly embedded over rational-valued nested
lists: a 1-D tensor is `Vec`, a 2-D tensor (sequence, features) is `Mat`,
a 3-D tensor is `T3`, a convolution kernel (kh, kw, cin, cout) is `T4`.
Irrational framework primitives (the exponential inside `tf.nn.softmax`,
the reciprocal square root inside `LayerNormalization`, the GELU
activation, `tf.sqrt`) are abstracted as explicit function / scalar
parameters; every shape and dataflow fact proved below holds for any
instantiation of them.  Dropout layers are called without a training
flag in the sources, i.e. they are the identity, and are embedded as
such.  Fallible tensor operations (`Reshape` with incompatible sizes,
a built `Conv2D` applied to the wrong channel count or to an input
smaller than its kernel) return `Option`.
-/

abbrev Vec := List ℚ
abbrev Mat := List (List ℚ)
abbrev T3 := List (List (List ℚ))
abbrev T4 := List (List (List (List ℚ)))

/-- Dot product of two vectors (truncating to the shorter one). -/
def dot (a b : Vec) : ℚ := (List.zipWith (· * ·) a b).sum

/-- Column `j` of a weight matrix stored row-major as (in, out). -/
def colD (w : Mat) (j : Nat) : Vec := w.map (fun r => r.getD j 0)

/-- Keras `Dense(units)` applied to a (seq, features) tensor:
`y = x ⬝ W + b` with `W : (in, units)`. -/
def dense (units : Nat) (w : Mat) (b : Vec) (x : Mat) : Mat :=
  x.map (fun r => (List.range units).map (fun j => dot r (colD w j) + b.getD j 0))

/-- Keras `Dense(units)` applied to a single feature vector. -/
def denseV (units : Nat) (w : Mat) (b : Vec) (v : Vec) : Vec :=
  (List.range units).map (fun j => dot v (colD w j) + b.getD j 0)

/-- Elementwise addition of two equally shaped (seq, features) tensors. -/
def addMat (x y : Mat) : Mat := List.zipWith (fun r s => List.zipWith (· + ·) r s) x y

/-- Multiply every entry of a (seq, features) tensor by a scalar. -/
def scaleM (c : ℚ) (x : Mat) : Mat := x.map (fun r => r.map (fun a => c * a))

/-- One row of `tf.nn.softmax` along the last axis, with the exponential
abstracted as `e`. -/
def softmaxRow (e : ℚ → ℚ) (v : Vec) : Vec :=
  let ex := v.map e
  let s := ex.sum
  ex.map (fun a => a / s)

/-- Row-wise `tf.nn.softmax` along the last axis of a (rows, cols) tensor. -/
def softmaxMat (e : ℚ → ℚ) (m : Mat) : Mat := m.map (softmaxRow e)

/-- Matrix transpose of a (rows, cols) tensor. -/
def transposeM (m : Mat) : Mat :=
  (List.range (m.headD []).length).map (fun j => m.map (fun r => r.getD j 0))

/-- Matrix product of an (n, p) by a (p, q) tensor, as `tf.matmul`. -/
def matMul (a b : Mat) : Mat :=
  a.map (fun ar => (List.range (b.headD []).length).map (fun j => dot ar (colD b j)))

/-- Split a flat list into `n` consecutive chunks of length `k`
(the semantics of a row-major reshape when `l.length = n * k`). -/
def chunkExact (n k : Nat) (l : List α) : List (List α) :=
  (List.range n).map (fun i => (l.drop (i * k)).take k)

/-- Row-major flattening of a 2-D tensor. -/
def flat2 (x : Mat) : Vec := x.flatten

/-- Row-major flattening of a 3-D tensor. -/
def flat3 (t : T3) : Vec := (t.map List.flatten).flatten

/-- Layer slice of columns [off, off+len) of a (seq, features) tensor. -/
def sliceCols (off len : Nat) (x : Mat) : Mat :=
  x.map (fun r => (r.drop off).take len)

/-- Keras `LayerNormalization` over the last axis, with the learned
scale `g`, offset `b`, and the reciprocal square root of
(variance + epsilon) abstracted as `rsqrt`. -/
def layerNormF (rsqrt : ℚ → ℚ) (g b : Vec) (x : Mat) : Mat :=
  x.map (fun row =>
    let n : ℚ := (row.length : ℚ)
    let mu := row.sum / n
    let v := ((row.map (fun a => (a - mu) * (a - mu))).sum) / n
    (List.range row.length).map
      (fun i => g.getD i 1 * ((row.getD i 0 - mu) * rsqrt v) + b.getD i 0))

/-- Input channel count a built `Conv2D` kernel (kh, kw, cin, cout) expects. -/
def kernelCin (k : T4) : Nat := ((k.headD []).headD []).length

/-- Keras `Conv2D(cout, kernel_size=k, strides=s)` (valid padding) on an
(H, W, C) tensor.  A built convolution fails on an input whose channel
count differs from the kernel's, or one smaller than the kernel. -/
def conv2d (k s cout : Nat) (ker : T4) (b : Vec) (x : T3) : Option T3 :=
  let cin := kernelCin ker
  if k ≤ x.length ∧ k ≤ (x.headD []).length ∧ ∀ row ∈ x, ∀ px ∈ row, px.length = cin then
    some ((List.range ((x.length - k) / s + 1)).map (fun i =>
      (List.range (((x.headD []).length - k) / s + 1)).map (fun j =>
        (List.range cout).map (fun co =>
          b.getD co 0 + ((List.range k).map (fun ki =>
            ((List.range k).map (fun kj =>
              ((List.range cin).map (fun ci =>
                (((x.getD (i * s + ki) []).getD (j * s + kj) []).getD ci 0) *
                ((((ker.getD ki []).getD kj []).getD ci []).getD co 0))).sum)).sum)).sum))))
  else none

/-- Keras `Reshape((H, W, -1))` of a (seq, features) tensor. -/
def reshapeSpatial (hh ww : Nat) (x : Mat) : Option T3 :=
  let f := flat2 x
  if 0 < hh * ww ∧ hh * ww ∣ f.length then
    let c := f.length / (hh * ww)
    some ((chunkExact hh (ww * c) f).map (chunkExact ww c))
  else none

/-- Keras `Reshape((n, -1))` of an (a, b, c) tensor down to 2-D. -/
def reshapeRows (n : Nat) (t : T3) : Option Mat :=
  let f := flat3 t
  if 0 < n ∧ n ∣ f.length then some (chunkExact n (f.length / n) f) else none

/-- Keras `Reshape((n, c))` of an (a, b, c0) tensor with both target
dimensions fixed. -/
def reshapeFixed (n c : Nat) (t : T3) : Option Mat :=
  let f := flat3 t
  if f.length = n * c then some (chunkExact n c f) else none

/-- Reshape a (seq, w) tensor to fixed row width `c`, the row count
being inferred, as `tf.reshape(x, [batch, -1, c])`. -/
def reshapeCols (c : Nat) (x : Mat) : Mat :=
  chunkExact ((flat2 x).length / c) c (flat2 x)

/-- Merge per-head (seq, head_dim) results back into a
(seq, heads*head_dim) tensor: the transpose to (seq, heads, head_dim)
followed by a row-major reshape. -/
def mergeHeads (hs : List Mat) : Mat :=
  (List.range (hs.headD []).length).map
    (fun n => (hs.map (fun m => m.getD n [])).flatten)

/-- Semantics of `tf.broadcast_to(t, [bb, 1, d])` on a (1, 1, d) (or
already broadcast (bb, 1, d)) tensor. -/
def broadcastTo3 (t : T3) (bb : Nat) : T3 :=
  if t.length = bb then t else List.replicate bb (t.headD [])

/-- Shape predicate: `x` is a well-formed (n, c) tensor. -/
abbrev Wf2 (x : Mat) (n c : Nat) : Prop := x.length = n ∧ ∀ r ∈ x, r.length = c

/-- Shape predicate: `t` is a well-formed (a, b, c) tensor. -/
abbrev Wf3 (t : T3) (a b c : Nat) : Prop := t.length = a ∧ ∀ m ∈ t, Wf2 m b c

namespace PVT

/-!
Embedding of `src/PVT/pvt.py`.  Layer objects are embedded as structures
holding their static configuration together with the framework-created
learned weights; `__init__`-time `assert` statements become `Option`
results of the `init` functions.
-/

/-- Static configuration computed by `Attention.__init__`
(`src/PVT/pvt.py:32-50`). -/
structure AttnCfg where
  dim : Nat
  num_heads : Nat
  head_dim : Nat
  sr_ratio : Nat
deriving DecidableEq, Repr

/-- Learned weights of a built PVT `Attention` layer: the `q`, `kv` and
`proj` dense layers, the spatial-reduction convolution `sr` and its
`norm`, plus the scale constant `qk_scale or head_dim ** -.5`. -/
structure AttnW where
  scale : ℚ
  qW : Mat
  qB : Vec
  kvW : Mat
  kvB : Vec
  projW : Mat
  projB : Vec
  srK : T4
  srB : Vec
  normG : Vec
  normB : Vec
  rsqrt : ℚ → ℚ

/-- A built PVT `Attention` layer. -/
structure Attn where
  cfg : AttnCfg
  w : AttnW

/-- The constructor `Attention.__init__` (`src/PVT/pvt.py:32-39`):
`assert dim % num_heads == 0` is fatal, `head_dim = dim // num_heads`. -/
def Attention.init (dim num_heads sr_ratio : Nat) : Option AttnCfg :=
  if dim % num_heads = 0 then
    some { dim := dim, num_heads := num_heads, head_dim := dim / num_heads, sr_ratio := sr_ratio }
  else none

/-- The forward pass `Attention.call` (`src/PVT/pvt.py:53-100`).
The query is projected and split into heads; when `sr_ratio > 1` the
key/value source is reshaped to spatial form, downsampled by the `sr`
convolution, flattened and normalized, otherwise it is the raw input.
Per head: `softmax(q ⬝ kᵀ * scale) ⬝ v`; heads are merged and projected.
Dropout layers are the identity outside training. -/
def Attention.call (a : Attn) (e : ℚ → ℚ) (inputs : Mat) (hh ww : Nat) : Option Mat := do
  let qd := dense a.cfg.dim a.w.qW a.w.qB inputs
  let q := (List.range a.cfg.num_heads).map
    (fun i => sliceCols (i * a.cfg.head_dim) a.cfg.head_dim qd)
  let src ←
    if a.cfg.sr_ratio > 1 then do
      let x1 ← reshapeSpatial hh ww inputs
      let x2 ← conv2d a.cfg.sr_ratio a.cfg.sr_ratio a.cfg.dim a.w.srK a.w.srB x1
      let x3 ← reshapeRows (hh / a.cfg.sr_ratio * (ww / a.cfg.sr_ratio)) x2
      pure (layerNormF a.w.rsqrt a.w.normG a.w.normB x3)
    else
      pure inputs
  let kvx := dense (2 * a.cfg.dim) a.w.kvW a.w.kvB src
  let heads := (List.range a.cfg.num_heads).map (fun i =>
    let k := sliceCols (i * a.cfg.head_dim) a.cfg.head_dim kvx
    let v := sliceCols (a.cfg.num_heads * a.cfg.head_dim + i * a.cfg.head_dim)
               a.cfg.head_dim kvx
    let attention := scaleM a.w.scale (matMul (q.getD i []) (transposeM k))
    let attention := softmaxMat e attention
    matMul attention v)
  let x := mergeHeads heads
  pure (dense a.cfg.dim a.w.projW a.w.projB x)

/-- The `MLP` layer (`src/PVT/pvt.py:11-26`): two dense layers around a
pointwise activation (tfa GELU, abstracted); dropout only in training. -/
structure MLPLayer where
  hidden_features : Nat
  out_features : Nat
  fc1W : Mat
  fc1B : Vec
  fc2W : Mat
  fc2B : Vec
  act : ℚ → ℚ

/-- The forward pass `MLP.call` (`src/PVT/pvt.py:20-26`) outside training. -/
def MLP.call (m : MLPLayer) (inputs : Mat) : Mat :=
  dense m.out_features m.fc2W m.fc2B
    ((dense m.hidden_features m.fc1W m.fc1B inputs).map (fun r => r.map m.act))

/-- A transformer `Block` (`src/PVT/pvt.py:103-120`): two layer norms,
an attention layer and an MLP. -/
structure Block where
  norm1G : Vec
  norm1B : Vec
  rsqrt1 : ℚ → ℚ
  attention : Attn
  norm2G : Vec
  norm2B : Vec
  rsqrt2 : ℚ → ℚ
  mlp : MLPLayer

/-- The forward pass `Block.call` (`src/PVT/pvt.py:112-120`), translated
statement by statement; in the source the binding `y = self.norm2(x)` is
immediately shadowed by `y = self.mlp(x)`, which is reproduced here. -/
def Block.call (b : Block) (e : ℚ → ℚ) (inputs : Mat) (hh ww : Nat) : Option Mat := do
  let x := layerNormF b.rsqrt1 b.norm1G b.norm1B inputs
  let x ← Attention.call b.attention e x hh ww
  let x := addMat inputs x
  let y := layerNormF b.rsqrt2 b.norm2G b.norm2B x
  let y := MLP.call b.mlp x
  pure (addMat x y)

/-- Static configuration computed by `PatchEmbedding.__init__`
(`src/PVT/pvt.py:125-135`). -/
structure PatchCfg where
  img_size : Nat
  patch_size : Nat
  embedding_dim : Nat
  hh : Nat
  ww : Nat
  num_patches : Nat
deriving DecidableEq, Repr

/-- Learned weights of a built `PatchEmbedding` layer: the `project`
convolution and the `norm` layer. -/
structure PatchW where
  projK : T4
  projB : Vec
  normG : Vec
  normB : Vec
  rsqrt : ℚ → ℚ

/-- A built `PatchEmbedding` layer. -/
structure PatchEmbed where
  cfg : PatchCfg
  w : PatchW

/-- The constructor `PatchEmbedding.__init__` (`src/PVT/pvt.py:125-135`):
`assert img_size % patch_size == 0` is fatal;
`H = W = img_size // patch_size`, `num_patches = H * W`. -/
def PatchEmbedding.init (img_size patch_size embedding_dim : Nat) : Option PatchCfg :=
  if img_size % patch_size = 0 then
    some { img_size := img_size, patch_size := patch_size, embedding_dim := embedding_dim,
           hh := img_size / patch_size, ww := img_size / patch_size,
           num_patches := (img_size / patch_size) * (img_size / patch_size) }
  else none

/-- The forward pass `PatchEmbedding.call` (`src/PVT/pvt.py:138-145`):
strided projection convolution, flatten to `(num_patches, embedding_dim)`,
layer norm; returns the sequence together with `(H, W)`. -/
def PatchEmbedding.call (p : PatchEmbed) (inputs : T3) : Option (Mat × Nat × Nat) := do
  let x ← conv2d p.cfg.patch_size p.cfg.patch_size p.cfg.embedding_dim p.w.projK p.w.projB inputs
  let x ← reshapeFixed p.cfg.num_patches p.cfg.embedding_dim x
  pure (layerNormF p.w.rsqrt p.w.normG p.w.normB x, p.cfg.hh, p.cfg.ww)

end PVT

namespace PVT

/-- Model state of a `PyramidVisionTransformer` (`src/PVT/pvt.py:149-220`):
the four patch embeddings, position embeddings, block stacks, the final
norm, the class token and the prediction head.  Position embeddings are
stored without the leading broadcast dimension of size 1. -/
structure PVTModel where
  num_classes : Nat
  patch_embed1 : PatchEmbed
  patch_embed2 : PatchEmbed
  patch_embed3 : PatchEmbed
  patch_embed4 : PatchEmbed
  pos_embed1 : Mat
  pos_embed2 : Mat
  pos_embed3 : Mat
  pos_embed4 : Mat
  block1 : List Block
  block2 : List Block
  block3 : List Block
  block4 : List Block
  normG : Vec
  normB : Vec
  rsqrtF : ℚ → ℚ
  cls_token : T3
  denseW : Mat
  denseB : Vec

/-- The pairs `(img_size, patch_size, embedding_dim)` passed to the four
`PatchEmbedding` constructors by `PyramidVisionTransformer.__init__`
(`src/PVT/pvt.py:185-188`), with their construction-time asserts. -/
def PyramidVisionTransformer.initPatchEmbeds (img_size patch_size : Nat)
    (e1 e2 e3 e4 : Nat) : Option (PatchCfg × PatchCfg × PatchCfg × PatchCfg) := do
  let p1 ← PatchEmbedding.init img_size patch_size e1
  let p2 ← PatchEmbedding.init (img_size / 4) 2 e2
  let p3 ← PatchEmbedding.init (img_size / 8) 2 e3
  let p4 ← PatchEmbedding.init (img_size / 16) 2 e4
  pure (p1, p2, p3, p4)

/-- The `for blk in self.blockN: x = blk(x, H, W)` loops of
`PyramidVisionTransformer.call`. -/
def blockLoop (e : ℚ → ℚ) (blocks : List Block) (hh ww : Nat) (x : Mat) : Option Mat :=
  match blocks with
  | [] => some x
  | b :: bs => (Block.call b e x hh ww).bind (blockLoop e bs hh ww)

/-- Forward pass of `PyramidVisionTransformer.call` (`src/PVT/pvt.py:223-288`)
for one batch element: four stages of patch embedding, position-embedding
addition and transformer blocks, with a spatial reshape between stages,
the class token prepended before stage 4, final layer norm, extraction of
sequence position 0 and the dense prediction head.  Dropout layers are
the identity outside training. -/
def PyramidVisionTransformer.forwardOne (m : PVTModel) (e : ℚ → ℚ) (img : T3) : Option Vec := do
  let (x, hh, ww) ← PatchEmbedding.call m.patch_embed1 img
  let x := addMat x m.pos_embed1
  let x ← blockLoop e m.block1 hh ww x
  let xs ← reshapeSpatial hh ww x
  let (x, hh, ww) ← PatchEmbedding.call m.patch_embed2 xs
  let x := addMat x m.pos_embed2
  let x ← blockLoop e m.block2 hh ww x
  let xs ← reshapeSpatial hh ww x
  let (x, hh, ww) ← PatchEmbedding.call m.patch_embed3 xs
  let x := addMat x m.pos_embed3
  let x ← blockLoop e m.block3 hh ww x
  let xs ← reshapeSpatial hh ww x
  let (x, hh, ww) ← PatchEmbedding.call m.patch_embed4 xs
  let x := ((m.cls_token.headD []).headD []) :: x
  let x := addMat x m.pos_embed4
  let x ← blockLoop e m.block4 hh ww x
  let x := layerNormF m.rsqrtF m.normG m.normB x
  let cls := x.headD []
  pure (denseV m.num_classes m.denseW m.denseB cls)

/-- Map the per-element forward pass over a batch, failing if any
element fails. -/
def batchMap (f : T3 → Option Vec) : List T3 → Option (List Vec)
  | [] => some []
  | t :: ts => do pure ((← f t) :: (← batchMap f ts))

/-- The batch-level `PyramidVisionTransformer.call` (`src/PVT/pvt.py:223-288`)
including its effect on the stored parameters: line 269 reassigns
`self.cls_token` to its broadcast over the batch
(`self.cls_token = tf.broadcast_to(self.cls_token, [B, 1, D])`); no other
stored parameter is written.  The result is the batch of logits paired
with the post-call parameter state. -/
def PyramidVisionTransformer.call (m : PVTModel) (e : ℚ → ℚ) (inputs : List T3) :
    Option (List Vec) × PVTModel :=
  let bb := inputs.length
  (batchMap (PyramidVisionTransformer.forwardOne m e) inputs,
   { m with cls_token := broadcastTo3 m.cls_token bb })

end PVT

namespace ViT

/-!
Embedding of `src/model.py` (the plain Vision Transformer layers).
-/

/-- The forward pass `ClassToken.call` (`src/model.py:42-46`): the learned
`(1, 1, F)` token `cls_w` is broadcast to `(batch, 1, F)` and concatenated
at sequence position 0 (the dtype cast is the identity here). -/
def ClassToken.call (cls_w : T3) (inputs : T3) : T3 :=
  let batch_size := inputs.length
  let cls_broadcast := broadcastTo3 cls_w batch_size
  List.zipWith (fun c seq => c ++ seq) cls_broadcast inputs

/-- The forward pass `PositionEmbedding.call` (`src/model.py:73-74`): the
learned `(1, L, D)` table `pos_w` is broadcast-added to every batch
element. -/
def PositionEmbedding.call (pos_w : Mat) (inputs : T3) : T3 :=
  inputs.map (fun seq => addMat seq pos_w)

/-- Static configuration of the ViT `Attention` layer (`src/model.py:83-87`). -/
structure AttnCfg where
  num_features : Nat
  num_heads : Nat
  project_dim : Nat
deriving DecidableEq, Repr

/-- The constructor `Attention.__init__` (`src/model.py:83-87`): it
performs no divisibility check and always succeeds, flooring
`project_dim = num_features // num_heads`. -/
def Attention.init (num_features num_heads : Nat) : AttnCfg :=
  { num_features := num_features, num_heads := num_heads,
    project_dim := num_features / num_heads }

/-- The forward pass `Attention.call` (`src/model.py:91-115`): the input
(batch, seq, 3*num_features) carries the concatenated Q/K/V projections;
it is reshaped to (batch, seq, 3, heads, project_dim), transposed, split
into per-head q, k, v, then `softmax(q ⬝ kᵀ / sqrt(project_dim)) ⬝ v` per
head, transposed back and reshaped to (batch, seq, num_features).
`tf.sqrt(project_dim)` is abstracted as the scalar `sqrtd`. -/
def Attention.call (a : AttnCfg) (sqrtd : ℚ) (e : ℚ → ℚ) (inputs : T3) : T3 :=
  inputs.map (fun seqx =>
    let heads := (List.range a.num_heads).map (fun i =>
      let query := sliceCols (i * a.project_dim) a.project_dim seqx
      let key := sliceCols ((a.num_heads + i) * a.project_dim) a.project_dim seqx
      let value := sliceCols ((2 * a.num_heads + i) * a.project_dim) a.project_dim seqx
      let score := matMul query (transposeM key)
      let scaled_score := score.map (fun r => r.map (fun v => v / sqrtd))
      let weights := softmaxMat e scaled_score
      matMul weights value)
    reshapeCols a.num_features (mergeHeads heads))

end ViT

/-! Shape lemmas for the tensor primitives. -/

theorem headD_mem {α : Type} {l : List α} (d : α) (h : 0 < l.length) : l.headD d ∈ l := by
  cases l with
  | nil => simp at h
  | cons a t => simp

theorem sum_const_of_mem {l : List Nat} {c : Nat} (h : ∀ a ∈ l, a = c) :
    l.sum = l.length * c := by
  induction l with
  | nil => simp
  | cons a t ih =>
    simp only [List.mem_cons, forall_eq_or_imp] at h
    simp [h.1, ih h.2, Nat.succ_mul, Nat.add_comm]

theorem dense_wf (units : Nat) (w : Mat) (b : Vec) (x : Mat) :
    Wf2 (dense units w b x) x.length units := by
  constructor
  · simp [dense]
  · intro r hr
    simp only [dense, List.mem_map] at hr
    obtain ⟨a, _, rfl⟩ := hr
    simp

theorem denseV_length (units : Nat) (w : Mat) (b : Vec) (v : Vec) :
    (denseV units w b v).length = units := by
  simp [denseV]

theorem layerNormF_wf {x : Mat} {n c : Nat} (rs : ℚ → ℚ) (g b : Vec)
    (h : Wf2 x n c) : Wf2 (layerNormF rs g b x) n c := by
  obtain ⟨hl, hr⟩ := h
  constructor
  · simp [layerNormF, hl]
  · intro r hrm
    simp only [layerNormF, List.mem_map] at hrm
    obtain ⟨a, ha, rfl⟩ := hrm
    simp [hr a ha]

theorem softmaxRow_length (e : ℚ → ℚ) (v : Vec) : (softmaxRow e v).length = v.length := by
  simp [softmaxRow]

theorem softmaxMat_wf {x : Mat} {n c : Nat} (e : ℚ → ℚ)
    (h : Wf2 x n c) : Wf2 (softmaxMat e x) n c := by
  obtain ⟨hl, hr⟩ := h
  constructor
  · simp [softmaxMat, hl]
  · intro r hrm
    simp only [softmaxMat, List.mem_map] at hrm
    obtain ⟨a, ha, rfl⟩ := hrm
    simp [softmaxRow_length, hr a ha]

theorem mem_zipWith_exists {α β γ : Type} {f : α → β → γ} {l1 : List α} {l2 : List β}
    {c : γ} (h : c ∈ List.zipWith f l1 l2) : ∃ a ∈ l1, ∃ b ∈ l2, c = f a b := by
  induction l1 generalizing l2 with
  | nil => simp at h
  | cons a t ih =>
    cases l2 with
    | nil => simp at h
    | cons b s =>
      simp only [List.zipWith_cons_cons, List.mem_cons] at h
      rcases h with rfl | h
      · exact ⟨a, by simp, b, by simp, rfl⟩
      · obtain ⟨a2, ha, b2, hb, rfl⟩ := ih h
        exact ⟨a2, by simp [ha], b2, by simp [hb], rfl⟩

theorem addMat_wf {x y : Mat} {n c : Nat} (hx : Wf2 x n c) (hy : Wf2 y n c) :
    Wf2 (addMat x y) n c := by
  obtain ⟨hxl, hxr⟩ := hx
  obtain ⟨hyl, hyr⟩ := hy
  constructor
  · simp [addMat, hxl, hyl]
  · intro r hrm
    simp only [addMat] at hrm
    obtain ⟨a, ha, b, hb, rfl⟩ := mem_zipWith_exists hrm
    simp [hxr a ha, hyr b hb]

theorem scaleM_wf {x : Mat} {n c : Nat} (q : ℚ) (h : Wf2 x n c) :
    Wf2 (scaleM q x) n c := by
  obtain ⟨hl, hr⟩ := h
  constructor
  · simp [scaleM, hl]
  · intro r hrm
    simp only [scaleM, List.mem_map] at hrm
    obtain ⟨a, ha, rfl⟩ := hrm
    simp [hr a ha]

theorem sliceCols_wf {x : Mat} {n c : Nat} {off len : Nat} (h : Wf2 x n c)
    (hfit : off + len ≤ c) : Wf2 (sliceCols off len x) n len := by
  obtain ⟨hl, hr⟩ := h
  constructor
  · simp [sliceCols, hl]
  · intro r hrm
    simp only [sliceCols, List.mem_map] at hrm
    obtain ⟨a, ha, rfl⟩ := hrm
    simp [hr a ha]
    omega

theorem transposeM_wf {x : Mat} {n c : Nat} (h : Wf2 x n c) (hn : 0 < n) :
    Wf2 (transposeM x) c n := by
  obtain ⟨hl, hr⟩ := h
  have hhead : (x.headD []).length = c := hr _ (headD_mem [] (hl ▸ hn))
  constructor
  · simp only [transposeM, List.length_map, List.length_range]
    exact hhead
  · intro r hrm
    simp only [transposeM, List.mem_map] at hrm
    obtain ⟨a, ha, rfl⟩ := hrm
    simp [hl]

theorem matMul_wf {a b : Mat} {n p q : Nat} (ha : Wf2 a n p) (hb : Wf2 b p q)
    (hp : 0 < p) : Wf2 (matMul a b) n q := by
  obtain ⟨hal, har⟩ := ha
  obtain ⟨hbl, hbr⟩ := hb
  have hhead : (b.headD []).length = q := hbr _ (headD_mem [] (hbl ▸ hp))
  constructor
  · simp [matMul, hal]
  · intro r hrm
    simp only [matMul, List.mem_map] at hrm
    obtain ⟨w, hw, rfl⟩ := hrm
    simp only [List.length_map, List.length_range]
    exact hhead

theorem chunkExact_wf {l : List ℚ} {n k : Nat} (h : l.length = n * k) :
    Wf2 (chunkExact n k l) n k := by
  constructor
  · simp [chunkExact]
  · intro r hrm
    simp only [chunkExact, List.mem_map, List.mem_range] at hrm
    obtain ⟨i, hi, rfl⟩ := hrm
    have hmul : (i + 1) * k ≤ n * k := Nat.mul_le_mul_right k hi
    rw [List.length_take, List.length_drop, h]
    have : k ≤ n * k - i * k := by
      have : i * k + k = (i + 1) * k := by ring
      omega
    omega

theorem flat2_length {x : Mat} {n c : Nat} (h : Wf2 x n c) :
    (flat2 x).length = n * c := by
  obtain ⟨hl, hr⟩ := h
  simp only [flat2, List.length_flatten]
  have hconst : ∀ a ∈ x.map List.length, a = c := by
    intro a hmem
    simp only [List.mem_map] at hmem
    obtain ⟨r, hrm, rfl⟩ := hmem
    exact hr r hrm
  rw [sum_const_of_mem hconst, List.length_map, hl]

theorem flat3_length {t : T3} {a b c : Nat} (h : Wf3 t a b c) :
    (flat3 t).length = a * (b * c) := by
  obtain ⟨hl, hr⟩ := h
  simp only [flat3, List.length_flatten]
  have hconst : ∀ v ∈ (t.map List.flatten).map List.length, v = b * c := by
    intro v hmem
    simp only [List.mem_map] at hmem
    obtain ⟨m, ⟨m2, hmm, rfl⟩, rfl⟩ := hmem
    exact flat2_length (hr m2 hmm)
  rw [sum_const_of_mem hconst, List.length_map, List.length_map, hl]

theorem mergeHeads_wf {hs : List Mat} {hcount n d : Nat}
    (hlen : hs.length = hcount) (hwf : ∀ m ∈ hs, Wf2 m n d) (hpos : 0 < hcount) :
    Wf2 (mergeHeads hs) n (hcount * d) := by
  have hhead : (hs.headD []).length = n := (hwf _ (headD_mem [] (hlen ▸ hpos))).1
  constructor
  · simp only [mergeHeads, List.length_map, List.length_range]
    exact hhead
  · intro r hrm
    simp only [mergeHeads, List.mem_map, List.mem_range] at hrm
    obtain ⟨i, hi, rfl⟩ := hrm
    rw [hhead] at hi
    have hconst : ∀ v ∈ (hs.map (fun m => m.getD i [])).map List.length, v = d := by
      intro v hmem
      simp only [List.mem_map] at hmem
      obtain ⟨m, ⟨m2, hmm, rfl⟩, rfl⟩ := hmem
      obtain ⟨hml, hmr⟩ := hwf m2 hmm
      have hidx : i < m2.length := by omega
      rw [List.getD_eq_getElem?_getD, List.getElem?_eq_getElem hidx]
      exact hmr _ (List.getElem_mem hidx)
    rw [List.length_flatten, sum_const_of_mem hconst, List.length_map, List.length_map, hlen]

theorem reshapeSpatial_some {x : Mat} {n c hh ww : Nat} (hx : Wf2 x n c)
    (hn : n = hh * ww) (hpos : 0 < hh * ww) :
    ∃ t, reshapeSpatial hh ww x = some t ∧ Wf3 t hh ww c := by
  have hflat : (flat2 x).length = hh * ww * c := by rw [flat2_length hx, hn]
  have hdvd : hh * ww ∣ (flat2 x).length := ⟨c, hflat⟩
  have hc : (flat2 x).length / (hh * ww) = c := by
    rw [hflat]; exact Nat.mul_div_cancel_left c hpos
  simp only [reshapeSpatial]
  rw [if_pos (And.intro hpos hdvd), hc]
  refine ⟨_, rfl, ?_⟩
  have houter : Wf2 (chunkExact hh (ww * c) (flat2 x)) hh (ww * c) :=
    chunkExact_wf (by rw [hflat]; ring)
  constructor
  · simp [houter.1]
  · intro m hm
    simp only [List.mem_map] at hm
    obtain ⟨r, hrm, rfl⟩ := hm
    exact chunkExact_wf (houter.2 r hrm)

theorem reshapeRows_some {t : T3} {a b c : Nat} (ht : Wf3 t a b c) (hpos : 0 < a * b) :
    ∃ m, reshapeRows (a * b) t = some m ∧ Wf2 m (a * b) c := by
  have hflat : (flat3 t).length = a * b * c := by rw [flat3_length ht]; ring
  have hdvd : a * b ∣ (flat3 t).length := ⟨c, hflat⟩
  have hc : (flat3 t).length / (a * b) = c := by
    rw [hflat]; exact Nat.mul_div_cancel_left c hpos
  simp only [reshapeRows]
  rw [if_pos (And.intro hpos hdvd), hc]
  exact ⟨_, rfl, chunkExact_wf hflat⟩

theorem reshapeFixed_some {t : T3} {a b c n e : Nat} (ht : Wf3 t a b c)
    (htot : a * (b * c) = n * e) :
    ∃ m, reshapeFixed n e t = some m ∧ Wf2 m n e := by
  have hflat : (flat3 t).length = n * e := by rw [flat3_length ht, htot]
  simp only [reshapeFixed]
  rw [if_pos hflat]
  exact ⟨_, rfl, chunkExact_wf hflat⟩

theorem conv2d_some {x : T3} {ih iw cin k s cout : Nat} (ker : T4) (b : Vec)
    (hx : Wf3 x ih iw cin) (hcin : kernelCin ker = cin)
    (hkh : k ≤ ih) (hkw : k ≤ iw) (hiw : 0 < ih) :
    ∃ t, conv2d k s cout ker b x = some t ∧
      Wf3 t ((ih - k) / s + 1) ((iw - k) / s + 1) cout := by
  obtain ⟨hl, hr⟩ := hx
  have hhead : (x.headD []).length = iw := (hr _ (headD_mem [] (hl ▸ hiw))).1
  have hguard : k ≤ x.length ∧ k ≤ (x.headD []).length ∧
      ∀ row ∈ x, ∀ px ∈ row, px.length = kernelCin ker := by
    refine ⟨hl ▸ hkh, hhead ▸ hkw, ?_⟩
    intro row hrow px hpx
    rw [hcin]
    exact (hr row hrow).2 px hpx
  simp only [conv2d]
  rw [if_pos hguard, hl, hhead]
  refine ⟨_, rfl, by simp, ?_⟩
  intro m hm
  simp only [List.mem_map] at hm
  obtain ⟨i, hi, rfl⟩ := hm
  refine ⟨by simp, ?_⟩
  intro px hpx
  simp only [List.mem_map] at hpx
  obtain ⟨j, hj, rfl⟩ := hpx
  simp

theorem getD_map_range {α : Type} (f : Nat → α) (d : α) {n i : Nat} (hi : i < n) :
    ((List.range n).map f).getD i d = f i := by
  rw [List.getD_eq_getElem?_getD, List.getElem?_map, List.getElem?_range hi]
  rfl

theorem sub_div_add_one {n s : Nat} (hs : 0 < s) (hle : s ≤ n) :
    (n - s) / s + 1 = n / s := by
  have h1 : n - s + s = n := Nat.sub_add_cancel hle
  calc (n - s) / s + 1 = ((n - s) + s) / s := (Nat.add_div_right _ hs).symm
  _ = n / s := by rw [h1]

theorem dense_wf_of {x : Mat} {n u : Nat} (w : Mat) (b : Vec) (hx : x.length = n) :
    Wf2 (dense u w b x) n u := by
  have := dense_wf u w b x
  rwa [hx] at this

theorem mergeHeads_length (hs : List Mat) :
    (mergeHeads hs).length = (hs.headD []).length := by
  simp [mergeHeads]

theorem headD_map_range {α : Type} (f : Nat → α) (d : α) {n : Nat} (hpos : 0 < n) :
    ((List.range n).map f).headD d = f 0 := by
  cases n with
  | zero => omega
  | succ k => simp [List.range_succ_eq_map]

namespace PVT

/-- The key/value-independent tail of `Attention.call`: given the raw
query-side input and the (possibly spatially reduced) key/value source,
project, split into heads, attend, merge and project.  `Attention.call`
is this applied to the appropriate source for each `sr_ratio` branch. -/
def attnFromSrc (a : Attn) (e : ℚ → ℚ) (inputs src : Mat) : Mat :=
  let qd := dense a.cfg.dim a.w.qW a.w.qB inputs
  let q := (List.range a.cfg.num_heads).map
    (fun i => sliceCols (i * a.cfg.head_dim) a.cfg.head_dim qd)
  let kvx := dense (2 * a.cfg.dim) a.w.kvW a.w.kvB src
  let heads := (List.range a.cfg.num_heads).map (fun i =>
    let k := sliceCols (i * a.cfg.head_dim) a.cfg.head_dim kvx
    let v := sliceCols (a.cfg.num_heads * a.cfg.head_dim + i * a.cfg.head_dim)
               a.cfg.head_dim kvx
    let attention := scaleM a.w.scale (matMul (q.getD i []) (transposeM k))
    let attention := softmaxMat e attention
    matMul attention v)
  dense a.cfg.dim a.w.projW a.w.projB (mergeHeads heads)

theorem Attention.call_sr1_eq (a : Attn) (e : ℚ → ℚ) (inputs : Mat) (hh ww : Nat)
    (h : ¬ a.cfg.sr_ratio > 1) :
    Attention.call a e inputs hh ww = some (attnFromSrc a e inputs inputs) := by
  simp [Attention.call, attnFromSrc, if_neg h]

theorem Attention.call_srgt1_eq (a : Attn) (e : ℚ → ℚ) (inputs : Mat) (hh ww : Nat)
    (h : a.cfg.sr_ratio > 1) :
    Attention.call a e inputs hh ww =
      (reshapeSpatial hh ww inputs).bind (fun x1 =>
        (conv2d a.cfg.sr_ratio a.cfg.sr_ratio a.cfg.dim a.w.srK a.w.srB x1).bind (fun x2 =>
          (reshapeRows (hh / a.cfg.sr_ratio * (ww / a.cfg.sr_ratio)) x2).bind (fun x3 =>
            some (attnFromSrc a e inputs
              (layerNormF a.w.rsqrt a.w.normG a.w.normB x3))))) := by
  simp only [Attention.call, attnFromSrc, if_pos h, Option.bind_eq_bind]
  rfl

theorem attnFromSrc_wf {a : Attn} (e : ℚ → ℚ) {inputs : Mat} (src : Mat) {nn : Nat}
    (hin : inputs.length = nn) (hpos : 0 < a.cfg.num_heads) :
    Wf2 (attnFromSrc a e inputs src) nn a.cfg.dim := by
  simp only [attnFromSrc]
  apply dense_wf_of
  rw [mergeHeads_length, headD_map_range _ _ hpos]
  simp only [matMul, softmaxMat, scaleM, List.length_map]
  rw [getD_map_range _ _ hpos]
  simp only [sliceCols, dense, List.length_map]
  exact hin

end PVT

theorem chunk2_wf {f : Vec} {hh ww c : Nat} (hlen : f.length = hh * (ww * c)) :
    Wf3 ((chunkExact hh (ww * c) f).map (chunkExact ww c)) hh ww c := by
  have houter : Wf2 (chunkExact hh (ww * c) f) hh (ww * c) := chunkExact_wf hlen
  constructor
  · simp [houter.1]
  · intro m hm
    simp only [List.mem_map] at hm
    obtain ⟨r, hrm, rfl⟩ := hm
    exact chunkExact_wf (houter.2 r hrm)

theorem reshapeSpatial_wf_of_some {x : Mat} {t : T3} {hh ww : Nat}
    (h : reshapeSpatial hh ww x = some t) :
    0 < hh * ww ∧ hh * ww ∣ (flat2 x).length ∧
      Wf3 t hh ww ((flat2 x).length / (hh * ww)) := by
  simp only [reshapeSpatial] at h
  split at h
  case isTrue hc =>
    injection h with h
    subst h
    refine ⟨hc.1, hc.2, chunk2_wf ?_⟩
    rw [← Nat.mul_assoc]
    exact (Nat.mul_div_cancel' hc.2).symm
  case isFalse => cases h

theorem reshapeRows_wf_of_some {n : Nat} {t : T3} {m : Mat}
    (h : reshapeRows n t = some m) :
    0 < n ∧ Wf2 m n ((flat3 t).length / n) := by
  simp only [reshapeRows] at h
  split at h
  case isTrue hc =>
    injection h with h
    subst h
    exact ⟨hc.1, chunkExact_wf (Nat.mul_div_cancel' hc.2).symm⟩
  case isFalse => cases h

theorem conv2d_guard_of_some {k s cout : Nat} {ker : T4} {b : Vec} {x t : T3}
    (h : conv2d k s cout ker b x = some t) :
    k ≤ x.length ∧ k ≤ (x.headD []).length ∧
      ∀ row ∈ x, ∀ px ∈ row, px.length = kernelCin ker := by
  simp only [conv2d] at h
  split at h
  case isTrue hc => exact hc
  case isFalse => cases h

namespace PVT

theorem Attention.call_some_of_srgt1 {a : Attn} {e : ℚ → ℚ} {inputs : Mat} {hh ww nn : Nat}
    (hsr : 1 < a.cfg.sr_ratio) (hin : Wf2 inputs nn a.cfg.dim) (hnn : nn = hh * ww)
    (hcin : kernelCin a.w.srK = a.cfg.dim)
    (hkh : a.cfg.sr_ratio ≤ hh) (hkw : a.cfg.sr_ratio ≤ ww) :
    ∃ out, Attention.call a e inputs hh ww = some out := by
  have hs : 0 < a.cfg.sr_ratio := by omega
  have hh0 : 0 < hh := lt_of_lt_of_le hs hkh
  have hw0 : 0 < ww := lt_of_lt_of_le hs hkw
  have hpos : 0 < hh * ww := Nat.mul_pos hh0 hw0
  rw [Attention.call_srgt1_eq a e inputs hh ww hsr]
  obtain ⟨x1, hx1, hx1wf⟩ := reshapeSpatial_some hin hnn hpos
  rw [hx1, Option.some_bind]
  obtain ⟨x2, hx2, hx2wf⟩ :=
    conv2d_some a.w.srK a.w.srB hx1wf hcin hkh hkw hh0
  rw [hx2, Option.some_bind]
  rw [sub_div_add_one hs hkh, sub_div_add_one hs hkw] at hx2wf
  have hnpos : 0 < hh / a.cfg.sr_ratio * (ww / a.cfg.sr_ratio) :=
    Nat.mul_pos (Nat.div_pos hkh hs) (Nat.div_pos hkw hs)
  obtain ⟨x3, hx3, _⟩ := reshapeRows_some hx2wf hnpos
  rw [hx3, Option.some_bind]
  exact ⟨_, rfl⟩

theorem Attention.call_wf_of_some {a : Attn} {e : ℚ → ℚ} {inputs out : Mat}
    {hh ww nn : Nat} (hin : inputs.length = nn) (hpos : 0 < a.cfg.num_heads)
    (h : Attention.call a e inputs hh ww = some out) : Wf2 out nn a.cfg.dim := by
  by_cases hsr : a.cfg.sr_ratio > 1
  · rw [Attention.call_srgt1_eq a e inputs hh ww hsr] at h
    rw [Option.bind_eq_some] at h
    obtain ⟨x1, _, h⟩ := h
    rw [Option.bind_eq_some] at h
    obtain ⟨x2, _, h⟩ := h
    rw [Option.bind_eq_some] at h
    obtain ⟨x3, _, h⟩ := h
    injection h with h
    subst h
    exact attnFromSrc_wf e _ hin hpos
  · rw [Attention.call_sr1_eq a e inputs hh ww hsr] at h
    injection h with h
    subst h
    exact attnFromSrc_wf e inputs hin hpos

theorem Attention.call_srgt1_seqlen {a : Attn} {e : ℚ → ℚ} {inputs out : Mat}
    {hh ww nn : Nat} (hsr : 1 < a.cfg.sr_ratio) (hin : Wf2 inputs nn a.cfg.dim)
    (hcin : kernelCin a.w.srK = a.cfg.dim) (hdim : 0 < a.cfg.dim)
    (h : Attention.call a e inputs hh ww = some out) : nn = hh * ww := by
  rw [Attention.call_srgt1_eq a e inputs hh ww hsr] at h
  rw [Option.bind_eq_some] at h
  obtain ⟨x1, hx1, h⟩ := h
  rw [Option.bind_eq_some] at h
  obtain ⟨x2, hx2, _⟩ := h
  obtain ⟨hpos, hdvd, hx1wf⟩ := reshapeSpatial_wf_of_some hx1
  have hguard := conv2d_guard_of_some hx2
  have hh0 : 0 < hh := by
    rcases Nat.eq_zero_or_pos hh with h0 | h0
    · subst h0; simp at hpos
    · exact h0
  have hw0 : 0 < ww := by
    rcases Nat.eq_zero_or_pos ww with h0 | h0
    · subst h0; simp at hpos
    · exact h0
  have hrow : x1.headD [] ∈ x1 := headD_mem [] (hx1wf.1 ▸ hh0)
  have hrowwf := hx1wf.2 _ hrow
  have hpx : (x1.headD []).headD [] ∈ x1.headD [] := headD_mem [] (hrowwf.1 ▸ hw0)
  have hpxlen := hrowwf.2 _ hpx
  have hpxker := hguard.2.2 _ hrow _ hpx
  have hflat : (flat2 inputs).length = nn * a.cfg.dim := flat2_length hin
  have hcdim : (flat2 inputs).length / (hh * ww) = a.cfg.dim := by
    rw [← hpxlen, hpxker, hcin]
  have heq : (flat2 inputs).length = hh * ww * a.cfg.dim :=
    Nat.eq_mul_of_div_eq_right hdvd hcdim
  rw [hflat] at heq
  exact Nat.eq_of_mul_eq_mul_right hdim heq

end PVT

namespace PVT

theorem MLP.call_wf (m : MLPLayer) (x : Mat) :
    Wf2 (MLP.call m x) x.length m.out_features := by
  simp only [MLP.call]
  apply dense_wf_of
  simp [dense]

theorem PatchEmbedding.call_some {p : PatchEmbed} {inputs : T3} {c : Nat}
    (hmod : p.cfg.img_size % p.cfg.patch_size = 0)
    (hps : 0 < p.cfg.patch_size) (him : 0 < p.cfg.img_size)
    (hhw : p.cfg.hh = p.cfg.img_size / p.cfg.patch_size)
    (hww : p.cfg.ww = p.cfg.img_size / p.cfg.patch_size)
    (hnp : p.cfg.num_patches = p.cfg.hh * p.cfg.ww)
    (hin : Wf3 inputs p.cfg.img_size p.cfg.img_size c)
    (hker : kernelCin p.w.projK = c) :
    ∃ seq, PatchEmbedding.call p inputs = some (seq, p.cfg.hh, p.cfg.ww) ∧
      Wf2 seq p.cfg.num_patches p.cfg.embedding_dim := by
  have hdvd : p.cfg.patch_size ∣ p.cfg.img_size := Nat.dvd_of_mod_eq_zero hmod
  have hle : p.cfg.patch_size ≤ p.cfg.img_size := Nat.le_of_dvd him hdvd
  obtain ⟨x1, hx1, hx1wf⟩ :=
    @conv2d_some inputs p.cfg.img_size p.cfg.img_size c p.cfg.patch_size p.cfg.patch_size
      p.cfg.embedding_dim p.w.projK p.w.projB hin hker hle hle him
  rw [sub_div_add_one hps hle] at hx1wf
  have htot : (p.cfg.img_size / p.cfg.patch_size) *
      ((p.cfg.img_size / p.cfg.patch_size) * p.cfg.embedding_dim) =
      p.cfg.num_patches * p.cfg.embedding_dim := by
    rw [hnp, hhw, hww]; ring
  obtain ⟨x2, hx2, hx2wf⟩ := reshapeFixed_some hx1wf htot
  have hcall : PatchEmbedding.call p inputs =
      some (layerNormF p.w.rsqrt p.w.normG p.w.normB x2, p.cfg.hh, p.cfg.ww) := by
    simp only [PatchEmbedding.call, Option.bind_eq_bind, Option.pure_def]
    rw [hx1, Option.some_bind, hx2, Option.some_bind]
  exact ⟨_, hcall, layerNormF_wf _ _ _ hx2wf⟩

/-- Static side conditions on a transformer block that guarantee its
forward pass at spatial size (hh, ww) on an (nn, dim) sequence succeeds
and preserves the shape. -/
def BlockOk (b : Block) (dim hh ww nn : Nat) : Prop :=
  b.attention.cfg.dim = dim ∧
  0 < b.attention.cfg.num_heads ∧
  b.mlp.out_features = dim ∧
  (1 < b.attention.cfg.sr_ratio →
    nn = hh * ww ∧ kernelCin b.attention.w.srK = dim ∧
    b.attention.cfg.sr_ratio ≤ hh ∧ b.attention.cfg.sr_ratio ≤ ww)

theorem Block.call_some_wf {b : Block} (e : ℚ → ℚ) {inputs : Mat} {dim hh ww nn : Nat}
    (hok : BlockOk b dim hh ww nn) (hin : Wf2 inputs nn dim) (hnn : 0 < nn) :
    ∃ out, Block.call b e inputs hh ww = some out ∧ Wf2 out nn dim := by
  obtain ⟨hdim, hheads, hmlp, hsr⟩ := hok
  have hx0 : Wf2 (layerNormF b.rsqrt1 b.norm1G b.norm1B inputs) nn dim :=
    layerNormF_wf _ _ _ hin
  have hx0d : Wf2 (layerNormF b.rsqrt1 b.norm1G b.norm1B inputs) nn b.attention.cfg.dim := by
    rw [hdim]; exact hx0
  have hattn : ∃ ax, Attention.call b.attention e
      (layerNormF b.rsqrt1 b.norm1G b.norm1B inputs) hh ww = some ax := by
    by_cases h1 : 1 < b.attention.cfg.sr_ratio
    · obtain ⟨c1, c2, c3, c4⟩ := hsr h1
      exact Attention.call_some_of_srgt1 h1 hx0d c1 (by rw [c2, hdim]) c3 c4
    · exact ⟨_, Attention.call_sr1_eq _ _ _ _ _ h1⟩
  obtain ⟨ax, hax⟩ := hattn
  have haxwf : Wf2 ax nn dim := by
    have := Attention.call_wf_of_some hx0.1 hheads hax
    rwa [hdim] at this
  refine ⟨addMat (addMat inputs ax) (MLP.call b.mlp (addMat inputs ax)), ?_, ?_⟩
  · simp only [Block.call]
    rw [hax]
    rfl
  have hx : Wf2 (addMat inputs ax) nn dim := addMat_wf hin haxwf
  have hmlpwf : Wf2 (MLP.call b.mlp (addMat inputs ax)) nn dim := by
    have := MLP.call_wf b.mlp (addMat inputs ax)
    rwa [hx.1, hmlp] at this
  exact addMat_wf hx hmlpwf

theorem blockLoop_some_wf {e : ℚ → ℚ} {blocks : List Block} {dim hh ww nn : Nat} {x : Mat}
    (hok : ∀ b ∈ blocks, BlockOk b dim hh ww nn) (hx : Wf2 x nn dim) (hnn : 0 < nn) :
    ∃ out, blockLoop e blocks hh ww x = some out ∧ Wf2 out nn dim := by
  induction blocks generalizing x with
  | nil => exact ⟨x, rfl, hx⟩
  | cons b bs ih =>
    obtain ⟨y, hy, hywf⟩ := Block.call_some_wf e (hok b (by simp)) hx hnn
    obtain ⟨out, hout, houtwf⟩ := ih (fun b2 hb => hok b2 (by simp [hb])) hywf
    exact ⟨out, by simp [blockLoop, hy, hout], houtwf⟩

end PVT

namespace PVT

/-- Shape side conditions satisfied by a default-configuration
`PyramidVisionTransformer()` (img_size 224, patch_size 4, num_classes 1000,
embed_dims [64,128,256,512], num_heads [1,2,4,8], sr_ratios [8,4,2,1]):
the four patch-embedding configurations computed at `__init__`, the
position-embedding shapes from `src/PVT/pvt.py:192-198`, the per-stage
block conditions and the class-token width. -/
def PVTModel.DefaultShaped (m : PVTModel) : Prop :=
  m.num_classes = 1000 ∧
  m.patch_embed1.cfg = ⟨224, 4, 64, 56, 56, 3136⟩ ∧
  m.patch_embed2.cfg = ⟨56, 2, 128, 28, 28, 784⟩ ∧
  m.patch_embed3.cfg = ⟨28, 2, 256, 14, 14, 196⟩ ∧
  m.patch_embed4.cfg = ⟨14, 2, 512, 7, 7, 49⟩ ∧
  kernelCin m.patch_embed1.w.projK = 3 ∧
  kernelCin m.patch_embed2.w.projK = 64 ∧
  kernelCin m.patch_embed3.w.projK = 128 ∧
  kernelCin m.patch_embed4.w.projK = 256 ∧
  Wf2 m.pos_embed1 3136 64 ∧
  Wf2 m.pos_embed2 784 128 ∧
  Wf2 m.pos_embed3 196 256 ∧
  Wf2 m.pos_embed4 50 512 ∧
  (∀ b ∈ m.block1, BlockOk b 64 56 56 3136) ∧
  (∀ b ∈ m.block2, BlockOk b 128 28 28 784) ∧
  (∀ b ∈ m.block3, BlockOk b 256 14 14 196) ∧
  (∀ b ∈ m.block4, BlockOk b 512 7 7 50) ∧
  ((m.cls_token.headD []).headD []).length = 512

theorem forwardOne_some {m : PVTModel} {e : ℚ → ℚ} {img : T3}
    (hm : m.DefaultShaped) (himg : Wf3 img 224 224 3) :
    ∃ y, PyramidVisionTransformer.forwardOne m e img = some y ∧
      y.length = m.num_classes := by
  obtain ⟨hnc, hpe1, hpe2, hpe3, hpe4, hk1, hk2, hk3, hk4, hp1, hp2, hp3, hp4,
    hb1, hb2, hb3, hb4, hcls⟩ := hm
  -- stage 1
  obtain ⟨s1, hs1, hs1wf⟩ := PatchEmbedding.call_some (p := m.patch_embed1) (c := 3)
    (by simp [hpe1]) (by simp [hpe1]) (by simp [hpe1])
    (by simp [hpe1]) (by simp [hpe1]) (by simp [hpe1])
    (by rw [hpe1]; exact himg) hk1
  have hs1c : PatchEmbedding.call m.patch_embed1 img = some (s1, 56, 56) := by
    rw [hs1, hpe1]
  have hs1wfc : Wf2 s1 3136 64 := by rw [hpe1] at hs1wf; exact hs1wf
  have hx1wf : Wf2 (addMat s1 m.pos_embed1) 3136 64 := addMat_wf hs1wfc hp1
  obtain ⟨t1, ht1, ht1wf⟩ := blockLoop_some_wf (e := e)
    hb1 hx1wf (by norm_num)
  obtain ⟨u1, hu1, hu1wf⟩ := @reshapeSpatial_some t1 3136 64 56 56 ht1wf (by norm_num) (by norm_num)
  -- stage 2
  obtain ⟨s2, hs2, hs2wf⟩ := PatchEmbedding.call_some (p := m.patch_embed2) (c := 64)
    (by simp [hpe2]) (by simp [hpe2]) (by simp [hpe2])
    (by simp [hpe2]) (by simp [hpe2]) (by simp [hpe2])
    (by rw [hpe2]; exact hu1wf) hk2
  have hs2c : PatchEmbedding.call m.patch_embed2 u1 = some (s2, 28, 28) := by
    rw [hs2, hpe2]
  have hs2wfc : Wf2 s2 784 128 := by rw [hpe2] at hs2wf; exact hs2wf
  have hx2wf : Wf2 (addMat s2 m.pos_embed2) 784 128 := addMat_wf hs2wfc hp2
  obtain ⟨t2, ht2, ht2wf⟩ := blockLoop_some_wf (e := e)
    hb2 hx2wf (by norm_num)
  obtain ⟨u2, hu2, hu2wf⟩ := @reshapeSpatial_some t2 784 128 28 28 ht2wf (by norm_num) (by norm_num)
  -- stage 3
  obtain ⟨s3, hs3, hs3wf⟩ := PatchEmbedding.call_some (p := m.patch_embed3) (c := 128)
    (by simp [hpe3]) (by simp [hpe3]) (by simp [hpe3])
    (by simp [hpe3]) (by simp [hpe3]) (by simp [hpe3])
    (by rw [hpe3]; exact hu2wf) hk3
  have hs3c : PatchEmbedding.call m.patch_embed3 u2 = some (s3, 14, 14) := by
    rw [hs3, hpe3]
  have hs3wfc : Wf2 s3 196 256 := by rw [hpe3] at hs3wf; exact hs3wf
  have hx3wf : Wf2 (addMat s3 m.pos_embed3) 196 256 := addMat_wf hs3wfc hp3
  obtain ⟨t3, ht3, ht3wf⟩ := blockLoop_some_wf (e := e)
    hb3 hx3wf (by norm_num)
  obtain ⟨u3, hu3, hu3wf⟩ := @reshapeSpatial_some t3 196 256 14 14 ht3wf (by norm_num) (by norm_num)
  -- stage 4
  obtain ⟨s4, hs4, hs4wf⟩ := PatchEmbedding.call_some (p := m.patch_embed4) (c := 256)
    (by simp [hpe4]) (by simp [hpe4]) (by simp [hpe4])
    (by simp [hpe4]) (by simp [hpe4]) (by simp [hpe4])
    (by rw [hpe4]; exact hu3wf) hk4
  have hs4c : PatchEmbedding.call m.patch_embed4 u3 = some (s4, 7, 7) := by
    rw [hs4, hpe4]
  have hs4wfc : Wf2 s4 49 512 := by rw [hpe4] at hs4wf; exact hs4wf
  have hx4wf : Wf2 (((m.cls_token.headD []).headD []) :: s4) 50 512 := by
    constructor
    · simp [hs4wfc.1]
    · intro r hr
      rcases List.mem_cons.mp hr with rfl | hr
      · exact hcls
      · exact hs4wfc.2 r hr
  have hx4awf : Wf2 (addMat (((m.cls_token.headD []).headD []) :: s4) m.pos_embed4) 50 512 :=
    addMat_wf hx4wf hp4
  obtain ⟨t4, ht4, ht4wf⟩ := blockLoop_some_wf (e := e)
    hb4 hx4awf (by norm_num)
  refine ⟨denseV m.num_classes m.denseW m.denseB
    ((layerNormF m.rsqrtF m.normG m.normB t4).headD []), ?_, denseV_length _ _ _ _⟩
  simp only [PyramidVisionTransformer.forwardOne, Option.bind_eq_bind, Option.pure_def]
  rw [hs1c]
  simp only [Option.some_bind]
  rw [ht1]
  simp only [Option.some_bind]
  rw [hu1]
  simp only [Option.some_bind]
  rw [hs2c]
  simp only [Option.some_bind]
  rw [ht2]
  simp only [Option.some_bind]
  rw [hu2]
  simp only [Option.some_bind]
  rw [hs3c]
  simp only [Option.some_bind]
  rw [ht3]
  simp only [Option.some_bind]
  rw [hu3]
  simp only [Option.some_bind]
  rw [hs4c]
  simp only [Option.some_bind]
  rw [ht4]
  simp only [Option.some_bind]

theorem batchMap_some {f : T3 → Option Vec} {P : Vec → Prop} {l : List T3}
    (h : ∀ t ∈ l, ∃ y, f t = some y ∧ P y) :
    ∃ ys, batchMap f l = some ys ∧ ys.length = l.length ∧ ∀ y ∈ ys, P y := by
  induction l with
  | nil => exact ⟨[], rfl, rfl, by simp⟩
  | cons t ts ih =>
    obtain ⟨y, hy, hPy⟩ := h t (by simp)
    obtain ⟨ys, hys, hlen, hP⟩ := ih (fun t2 ht => h t2 (by simp [ht]))
    refine ⟨y :: ys, ?_, by simp [hlen], ?_⟩
    · simp [batchMap, hy, hys]
    · intro z hz
      rcases List.mem_cons.mp hz with rfl | hz
      · exact hPy
      · exact hP z hz

end PVT

theorem reshapeCols_wf {x : Mat} {n c : Nat} (hx : Wf2 x n c) (hc : 0 < c) :
    Wf2 (reshapeCols c x) n c := by
  have hflat : (flat2 x).length = n * c := flat2_length hx
  have hdiv : (flat2 x).length / c = n := by
    rw [hflat]
    exact Nat.mul_div_cancel n hc
  simp only [reshapeCols]
  rw [hdiv]
  exact chunkExact_wf hflat

theorem broadcastTo3_wf {t : T3} {b c : Nat} (ht : Wf3 t 1 b c) (bb : Nat) :
    Wf3 (broadcastTo3 t bb) bb b c := by
  unfold broadcastTo3
  split
  case isTrue h => exact ⟨h, ht.2⟩
  case isFalse h =>
    refine ⟨by simp, ?_⟩
    intro m hm
    rw [List.eq_of_mem_replicate hm]
    exact ht.2 _ (headD_mem [] (by rw [ht.1]; omega))

theorem wf2_replicate (n c : Nat) :
    Wf2 (List.replicate n (List.replicate c (0:ℚ))) n c := by
  refine ⟨by simp, ?_⟩
  intro r hr
  rw [List.eq_of_mem_replicate hr]
  simp

theorem wf3_replicate (a b c : Nat) :
    Wf3 (List.replicate a (List.replicate b (List.replicate c (0:ℚ)))) a b c := by
  refine ⟨by simp, ?_⟩
  intro m hm
  rw [List.eq_of_mem_replicate hm]
  exact wf2_replicate b c

theorem mergeHeads_range_wf {f : Nat → Mat} {hcount n d : Nat}
    (hwf : ∀ i, i < hcount → Wf2 (f i) n d) (hpos : 0 < hcount) :
    Wf2 (mergeHeads ((List.range hcount).map f)) n (hcount * d) := by
  refine mergeHeads_wf ?_ ?_ hpos
  · simp
  · intro m hm
    simp only [List.mem_map, List.mem_range] at hm
    obtain ⟨i, hi, rfl⟩ := hm
    exact hwf i hi

namespace ViT

theorem Attention.call_wf_vit {a : AttnCfg} {sqrtd : ℚ} {e : ℚ → ℚ} {inputs : T3}
    {bb nn : Nat} (hin : Wf3 inputs bb nn (3 * a.num_features))
    (hheads : 0 < a.num_heads) (hpd : a.num_heads * a.project_dim = a.num_features)
    (hf : 0 < a.num_features) (hnn : 0 < nn) :
    Wf3 (Attention.call a sqrtd e inputs) bb nn a.num_features := by
  have hpd0 : 0 < a.project_dim := by
    rcases Nat.eq_zero_or_pos a.project_dim with h0 | h0
    · rw [h0, Nat.mul_zero] at hpd
      omega
    · exact h0
  refine ⟨by simp [Attention.call, hin.1], ?_⟩
  intro m hm
  simp only [Attention.call, List.mem_map] at hm
  obtain ⟨seqx, hseq, rfl⟩ := hm
  have hseqwf : Wf2 seqx nn (3 * a.num_features) := hin.2 seqx hseq
  have hheadwf : ∀ i, i < a.num_heads →
      Wf2 (matMul (softmaxMat e ((matMul (sliceCols (i * a.project_dim) a.project_dim seqx)
        (transposeM (sliceCols ((a.num_heads + i) * a.project_dim) a.project_dim seqx))).map
        (fun r => r.map (fun v => v / sqrtd))))
        (sliceCols ((2 * a.num_heads + i) * a.project_dim) a.project_dim seqx))
        nn a.project_dim := by
    intro i hi
    have hfitq : i * a.project_dim + a.project_dim ≤ 3 * a.num_features := by
      have h2 : (i + 1) * a.project_dim ≤ a.num_heads * a.project_dim :=
        Nat.mul_le_mul_right _ hi
      rw [Nat.succ_mul, hpd] at h2
      omega
    have h3 : i * a.project_dim + a.project_dim ≤ a.num_features := by
      have h4 : (i + 1) * a.project_dim ≤ a.num_heads * a.project_dim :=
        Nat.mul_le_mul_right _ hi
      rw [Nat.succ_mul, hpd] at h4
      exact h4
    have hfitk : (a.num_heads + i) * a.project_dim + a.project_dim ≤ 3 * a.num_features := by
      have h2 : (a.num_heads + i) * a.project_dim + a.project_dim =
          a.num_heads * a.project_dim + (i * a.project_dim + a.project_dim) := by ring
      rw [h2, hpd]
      omega
    have hfitv : (2 * a.num_heads + i) * a.project_dim + a.project_dim ≤
        3 * a.num_features := by
      have h2 : (2 * a.num_heads + i) * a.project_dim + a.project_dim =
          2 * (a.num_heads * a.project_dim) + (i * a.project_dim + a.project_dim) := by ring
      rw [h2, hpd]
      omega
    have hq := sliceCols_wf hseqwf hfitq
    have hk := sliceCols_wf hseqwf hfitk
    have hv := sliceCols_wf hseqwf hfitv
    have hscore := matMul_wf hq (transposeM_wf hk hnn) hpd0
    have hscaled : Wf2 ((matMul (sliceCols (i * a.project_dim) a.project_dim seqx)
        (transposeM (sliceCols ((a.num_heads + i) * a.project_dim) a.project_dim seqx))).map
        (fun r => r.map (fun v => v / sqrtd))) nn nn := by
      refine ⟨by simp [hscore.1], ?_⟩
      intro r hr
      simp only [List.mem_map] at hr
      obtain ⟨r2, hr2, rfl⟩ := hr
      simp [hscore.2 r2 hr2]
    exact matMul_wf (softmaxMat_wf e hscaled) hv hnn
  have hmerge := mergeHeads_range_wf hheadwf hheads
  rw [hpd] at hmerge
  exact reshapeCols_wf hmerge hf

end ViT

/-!
Claim section.  Each claim of the specification gets exactly one theorem,
with concrete witness instances where the theorem carries hypotheses.
-/

/-- Modelled from the spec (sections 4.3/4.4 and testable property 4):
standard full multi-head attention over the raw input with the layer's
own Q and KV projection weights and no spatial reduction — per head
`softmax(q ⬝ kᵀ * scale) ⬝ v`, heads merged, output projected.  This is
the reference side of refinement claim C4. -/
def standardFullAttention (a : PVT.Attn) (e : ℚ → ℚ) (inputs : Mat) : Mat :=
  let qd := dense a.cfg.dim a.w.qW a.w.qB inputs
  let kvx := dense (2 * a.cfg.dim) a.w.kvW a.w.kvB inputs
  let heads := (List.range a.cfg.num_heads).map (fun i =>
    let q := sliceCols (i * a.cfg.head_dim) a.cfg.head_dim qd
    let k := sliceCols (i * a.cfg.head_dim) a.cfg.head_dim kvx
    let v := sliceCols (a.cfg.num_heads * a.cfg.head_dim + i * a.cfg.head_dim)
               a.cfg.head_dim kvx
    matMul (softmaxMat e (scaleM a.w.scale (matMul q (transposeM k)))) v)
  dense a.cfg.dim a.w.projW a.w.projB (mergeHeads heads)

/-- Concrete one-dimensional attention layer with `sr_ratio = 1`. -/
def tinyAttn1 : PVT.Attn :=
  { cfg := { dim := 1, num_heads := 1, head_dim := 1, sr_ratio := 1 },
    w := { scale := 1, qW := [[1]], qB := [], kvW := [[1, 1]], kvB := [],
           projW := [[1]], projB := [0], srK := [], srB := [],
           normG := [], normB := [], rsqrt := fun _ => 1 } }

/-- C4: for identical Q, K, V projection weights and identical input, the
PVT Attention layer with `sr_ratio = 1` produces the output of standard
full attention: the spatial-reduction branch is not taken, so no
downsampling convolution and no extra normalization touch the key/value
source. -/
theorem C4_sr1_attention_equals_full_attention (a : PVT.Attn) (e : ℚ → ℚ)
    (inputs : Mat) (hh ww : Nat) (hsr : a.cfg.sr_ratio = 1) :
    PVT.Attention.call a e inputs hh ww = some (standardFullAttention a e inputs) := by
  rw [PVT.Attention.call_sr1_eq a e inputs hh ww (by omega)]
  congr 1
  simp only [PVT.attnFromSrc, standardFullAttention]
  congr 1
  congr 1
  apply List.map_congr_left
  intro i hi
  rw [getD_map_range _ _ (List.mem_range.mp hi)]

/-- Witness for C4 at a concrete layer and input. -/
theorem C4_witness :
    tinyAttn1.cfg.sr_ratio = 1 ∧
    PVT.Attention.call tinyAttn1 (fun _ => 1) [[1]] 1 1 =
      some (standardFullAttention tinyAttn1 (fun _ => 1) [[1]]) :=
  ⟨rfl, C4_sr1_attention_equals_full_attention tinyAttn1 (fun _ => 1) [[1]] 1 1 rfl⟩

/-- Concrete one-dimensional MLP with identity weights. -/
def tinyMLP1 : PVT.MLPLayer :=
  { hidden_features := 1, out_features := 1, fc1W := [[1]], fc1B := [],
    fc2W := [[1]], fc2B := [], act := id }

/-- Concrete transformer block built from `tinyAttn1` and `tinyMLP1`,
with identity-like layer norms. -/
def tinyBlock1 : PVT.Block :=
  { norm1G := [1], norm1B := [0], rsqrt1 := fun _ => 1, attention := tinyAttn1,
    norm2G := [1], norm2B := [0], rsqrt2 := fun _ => 1, mlp := tinyMLP1 }

/-- C1: the claim states the transformer block computes
`x' = x + Attention(Norm1(x))` and then `y = x' + MLP(Norm2(x'))`, both
sub-layers receiving the pre-normalized input.  The code does compute the
attention half that way, but `src/PVT/pvt.py:117-118` binds
`y = self.norm2(x)` and immediately overwrites it with `y = self.mlp(x)`,
so the MLP receives the raw residual `x'`, not `Norm2(x')`.  On the block
above at input `[[1]]` the code returns `[[2]]` while the claim's
composition (with the same embedded layers) yields `[[1]]`. -/
theorem C1_block_mlp_skips_norm2 :
    PVT.Block.call tinyBlock1 (fun _ => 1) [[1]] 1 1 = some [[2]] ∧
    (let x := addMat [[1]] ((PVT.Attention.call tinyAttn1 (fun _ => 1)
        (layerNormF (fun _ => 1) [1] [0] [[1]]) 1 1).getD []);
      addMat x (PVT.MLP.call tinyMLP1 (layerNormF (fun _ => 1) [1] [0] x))) = [[1]] ∧
    ([[2]] : Mat) ≠ [[1]] := by
  refine ⟨?_, ?_, ?_⟩ <;> with_unfolding_all decide

/-- Minimal patch embedding used by the C2 model. -/
def tinyPE1 : PVT.PatchEmbed :=
  { cfg := { img_size := 1, patch_size := 1, embedding_dim := 1,
             hh := 1, ww := 1, num_patches := 1 },
    w := { projK := [[[[1]]]], projB := [0], normG := [1], normB := [0],
           rsqrt := fun _ => 1 } }

/-- Concrete PyramidVisionTransformer state used to exhibit the C2
class-token reassignment. -/
def c2Model : PVT.PVTModel :=
  { num_classes := 1,
    patch_embed1 := tinyPE1, patch_embed2 := tinyPE1,
    patch_embed3 := tinyPE1, patch_embed4 := tinyPE1,
    pos_embed1 := [[0]], pos_embed2 := [[0]], pos_embed3 := [[0]],
    pos_embed4 := [[0], [0]],
    block1 := [], block2 := [], block3 := [], block4 := [],
    normG := [1], normB := [0], rsqrtF := fun _ => 1,
    cls_token := [[[1]]],
    denseW := [[1]], denseB := [0] }

/-- C2 counterexample: the claim says every stored parameter, including
`self.cls_token`, is identical after a forward call.  On a batch of two
inputs `src/PVT/pvt.py:269` reassigns `self.cls_token` to its broadcast
over the batch, changing its shape from (1, 1, D) to (B, 1, D). -/
theorem C2_cls_token_reassigned :
    (PVT.PyramidVisionTransformer.call c2Model (fun _ => 1)
      [[[[1]]], [[[1]]]]).2.cls_token = [[[1]], [[1]]] ∧
    c2Model.cls_token = [[[1]]] ∧
    ([[[1]], [[1]]] : T3) ≠ [[[1]]] := by
  refine ⟨?_, rfl, ?_⟩ <;> with_unfolding_all decide

/-- C2 amended: during `PyramidVisionTransformer.call` every stored
parameter except `cls_token` is left unchanged, and `cls_token` is
reassigned to its broadcast over the batch dimension
(`src/PVT/pvt.py:269`); in particular for batch size 1 (and only in
degenerate cases like it) the parameter state is preserved. -/
theorem C2_param_frame_effect (m : PVT.PVTModel) (e : ℚ → ℚ) (inputs : List T3) :
    (PVT.PyramidVisionTransformer.call m e inputs).2.cls_token =
      broadcastTo3 m.cls_token inputs.length ∧
    (PVT.PyramidVisionTransformer.call m e inputs).2.num_classes = m.num_classes ∧
    (PVT.PyramidVisionTransformer.call m e inputs).2.patch_embed1 = m.patch_embed1 ∧
    (PVT.PyramidVisionTransformer.call m e inputs).2.patch_embed2 = m.patch_embed2 ∧
    (PVT.PyramidVisionTransformer.call m e inputs).2.patch_embed3 = m.patch_embed3 ∧
    (PVT.PyramidVisionTransformer.call m e inputs).2.patch_embed4 = m.patch_embed4 ∧
    (PVT.PyramidVisionTransformer.call m e inputs).2.pos_embed1 = m.pos_embed1 ∧
    (PVT.PyramidVisionTransformer.call m e inputs).2.pos_embed2 = m.pos_embed2 ∧
    (PVT.PyramidVisionTransformer.call m e inputs).2.pos_embed3 = m.pos_embed3 ∧
    (PVT.PyramidVisionTransformer.call m e inputs).2.pos_embed4 = m.pos_embed4 ∧
    (PVT.PyramidVisionTransformer.call m e inputs).2.block1 = m.block1 ∧
    (PVT.PyramidVisionTransformer.call m e inputs).2.block2 = m.block2 ∧
    (PVT.PyramidVisionTransformer.call m e inputs).2.block3 = m.block3 ∧
    (PVT.PyramidVisionTransformer.call m e inputs).2.block4 = m.block4 ∧
    (PVT.PyramidVisionTransformer.call m e inputs).2.normG = m.normG ∧
    (PVT.PyramidVisionTransformer.call m e inputs).2.normB = m.normB ∧
    (PVT.PyramidVisionTransformer.call m e inputs).2.rsqrtF = m.rsqrtF ∧
    (PVT.PyramidVisionTransformer.call m e inputs).2.denseW = m.denseW ∧
    (PVT.PyramidVisionTransformer.call m e inputs).2.denseB = m.denseB :=
  ⟨rfl, rfl, rfl, rfl, rfl, rfl, rfl, rfl, rfl, rfl, rfl, rfl, rfl, rfl, rfl,
   rfl, rfl, rfl, rfl⟩

/-- C3 counterexample: the claim says the divisibility precondition is
checked at construction for the ViT attention layer as well.  The ViT
`Attention.__init__` (`src/model.py:83-87`) performs no check: with
`num_features = 7` and `num_heads = 2` construction succeeds, silently
flooring `project_dim` to 3, even though 7 is not divisible by 2. -/
theorem C3_vit_attention_unchecked :
    ViT.Attention.init 7 2 =
      { num_features := 7, num_heads := 2, project_dim := 3 } ∧
    ¬ (7 % 2 = 0) := by
  exact ⟨rfl, by decide⟩

/-- C3 amended: both PVT construction-time checks behave as claimed —
`Attention.__init__` fails exactly when the embedding dimension is not
divisible by the head count and `PatchEmbedding.__init__` fails exactly
when the image size is not divisible by the patch size — but the ViT
attention constructor performs no check and always succeeds. -/
theorem C3_construction_time_checks :
    (∀ dim heads sr, (PVT.Attention.init dim heads sr).isSome = true ↔
      dim % heads = 0) ∧
    (∀ img ps emb, (PVT.PatchEmbedding.init img ps emb).isSome = true ↔
      img % ps = 0) ∧
    (∀ nf nh, ViT.Attention.init nf nh =
      { num_features := nf, num_heads := nh, project_dim := nf / nh }) := by
  refine ⟨?_, ?_, ?_⟩
  · intro dim heads sr
    unfold PVT.Attention.init
    split
    case isTrue h => simpa using h
    case isFalse h => simpa using h
  · intro img ps emb
    unfold PVT.PatchEmbedding.init
    split
    case isTrue h => simpa using h
    case isFalse h => simpa using h
  · intro nf nh
    rfl

/-- C5: for an embedding dimension divisible by the head count, attention
is shape preserving.  First conjunct (PVT, `src/PVT/pvt.py:53-100`):
whenever the layer returns on an (nn, dim) sequence the result is again
an (nn, dim) sequence, for both spatial-reduction branches.  Second
conjunct (ViT, `src/model.py:91-115`): on a (batch, nn, 3*num_features)
tensor carrying the concatenated Q/K/V projections the output is
(batch, nn, num_features). -/
theorem C5_attention_shape_preserving :
    (∀ (a : PVT.Attn) (e : ℚ → ℚ) (inputs out : Mat) (hh ww nn : Nat),
      a.cfg.dim % a.cfg.num_heads = 0 → 0 < a.cfg.num_heads →
      Wf2 inputs nn a.cfg.dim →
      PVT.Attention.call a e inputs hh ww = some out →
      Wf2 out nn a.cfg.dim) ∧
    (∀ (nf nh bb nn : Nat) (sqrtd : ℚ) (e : ℚ → ℚ) (inputs : T3),
      nf % nh = 0 → 0 < nh → 0 < nf → 0 < nn →
      Wf3 inputs bb nn (3 * nf) →
      Wf3 (ViT.Attention.call (ViT.Attention.init nf nh) sqrtd e inputs) bb nn nf) := by
  constructor
  · intro a e inputs out hh ww nn _ hheads hin hsome
    exact PVT.Attention.call_wf_of_some hin.1 hheads hsome
  · intro nf nh bb nn sqrtd e inputs hdvd hnh hnf hnn hin
    have hpd : nh * (nf / nh) = nf := Nat.mul_div_cancel' (Nat.dvd_of_mod_eq_zero hdvd)
    exact ViT.Attention.call_wf_vit hin hnh hpd hnf hnn

/-- Witness for C5: both attention variants at concrete layers and inputs. -/
theorem C5_witness :
    Wf2 [[1]] 1 tinyAttn1.cfg.dim ∧
    Wf3 (ViT.Attention.call (ViT.Attention.init 1 1) 1 (fun _ => 1) [[[1, 2, 3]]]) 1 1 1 :=
  ⟨C5_attention_shape_preserving.1 tinyAttn1 (fun _ => 1) [[1]] [[1]] 1 1 1
      (by decide) (by decide) (by decide) (by with_unfolding_all decide),
   C5_attention_shape_preserving.2 1 1 1 1 1 (fun _ => 1) [[[1, 2, 3]]]
      (by decide) (by decide) (by decide) (by decide) (by decide)⟩

/-- C6: for `img_size % patch_size == 0` the patch embedding produces
exactly `(img_size/patch_size)²` patches — a flattened
(num_patches, embedding_dim) sequence — and returns the retained spatial
shape `(H', W') = (img_size/patch_size, img_size/patch_size)`
(`src/PVT/pvt.py:123-145`). -/
theorem C6_patch_embedding_shape (img ps emb c : Nat) (cfg : PVT.PatchCfg)
    (w : PVT.PatchW) (inputs : T3)
    (hinit : PVT.PatchEmbedding.init img ps emb = some cfg)
    (him : 0 < img) (hps : 0 < ps)
    (hin : Wf3 inputs img img c) (hker : kernelCin w.projK = c) :
    ∃ seq, PVT.PatchEmbedding.call ⟨cfg, w⟩ inputs =
        some (seq, img / ps, img / ps) ∧
      seq.length = (img / ps) * (img / ps) ∧ ∀ r ∈ seq, r.length = emb := by
  have hcfg : img % ps = 0 ∧
      cfg = ⟨img, ps, emb, img / ps, img / ps, (img / ps) * (img / ps)⟩ := by
    unfold PVT.PatchEmbedding.init at hinit
    split at hinit
    case isTrue h => exact ⟨h, (Option.some_inj.mp hinit).symm⟩
    case isFalse h => cases hinit
  obtain ⟨hmod, rfl⟩ := hcfg
  obtain ⟨seq, hcall, hwf⟩ := PVT.PatchEmbedding.call_some
    (p := ⟨⟨img, ps, emb, img / ps, img / ps, (img / ps) * (img / ps)⟩, w⟩) (c := c)
    hmod hps him rfl rfl rfl hin hker
  exact ⟨seq, hcall, hwf.1, hwf.2⟩

/-- Witness for C6 at a concrete 2×2 single-channel image with patch
size 1. -/
theorem C6_witness :
    ∃ seq, PVT.PatchEmbedding.call
        ⟨⟨2, 1, 1, 2, 2, 4⟩, ⟨[[[[1]]]], [0], [1], [0], fun _ => 1⟩⟩
        [[[1], [2]], [[3], [4]]] = some (seq, 2, 2) ∧
      seq.length = 2 * 2 ∧ ∀ r ∈ seq, r.length = 1 :=
  C6_patch_embedding_shape 2 1 1 1 ⟨2, 1, 1, 2, 2, 4⟩
    ⟨[[[[1]]]], [0], [1], [0], fun _ => 1⟩ [[[1], [2]], [[3], [4]]]
    (by decide) (by decide) (by decide) (by decide) rfl

/-- C10: a PVT attention layer with `sr_ratio > 1` reshapes its input
sequence to spatial form (H, W, -1) before the reduction convolution
(`src/PVT/pvt.py:59-73`), so it requires the sequence length to be
exactly H·W; a sequence extended with a prepended class token (length
H·W + 1) cannot be processed — only `sr_ratio = 1` blocks accept the
class-token-extended final-stage sequence. -/
theorem C10_spatial_reduction_rejects_class_token (a : PVT.Attn) (e : ℚ → ℚ)
    (inputs : Mat) (hh ww : Nat) (hsr : 1 < a.cfg.sr_ratio)
    (hin : Wf2 inputs (hh * ww + 1) a.cfg.dim)
    (hcin : kernelCin a.w.srK = a.cfg.dim) (hdim : 0 < a.cfg.dim) :
    PVT.Attention.call a e inputs hh ww = none := by
  cases hcall : PVT.Attention.call a e inputs hh ww with
  | none => rfl
  | some out =>
    have := PVT.Attention.call_srgt1_seqlen hsr hin hcin hdim hcall
    omega

/-- Concrete spatial-reduction attention layer with `sr_ratio = 2`. -/
def srAttn2 : PVT.Attn :=
  { cfg := { dim := 1, num_heads := 1, head_dim := 1, sr_ratio := 2 },
    w := { scale := 1, qW := [[1]], qB := [], kvW := [[1, 1]], kvB := [],
           projW := [[1]], projB := [0],
           srK := [[[[1]], [[1]]], [[[1]], [[1]]]], srB := [0],
           normG := [1], normB := [0], rsqrt := fun _ => 1 } }

/-- Witness for C10: the 2×2-grid spatial-reduction layer rejects the
class-token-extended sequence of length 5 = 2·2 + 1. -/
theorem C10_witness :
    PVT.Attention.call srAttn2 (fun _ => 1) [[1], [2], [3], [4], [5]] 2 2 = none :=
  C10_spatial_reduction_rejects_class_token srAttn2 (fun _ => 1)
    [[1], [2], [3], [4], [5]] 2 2 (by decide) (by decide) rfl (by decide)

/-- C8: class-token injection takes a (B, 196, 768) feature batch to
(B, 197, 768) — one learned token broadcast over the batch and
concatenated at sequence position 0 (`src/model.py:42-46`) — and the
subsequent position-embedding addition (`src/model.py:63-74`, whose
learned table is built as (1, 197, 768)) preserves that shape. -/
theorem C8_class_token_then_position_embedding (cls_w : T3) (pos_w : Mat)
    (inputs : T3) (bb : Nat)
    (hcls : Wf3 cls_w 1 1 768) (hin : Wf3 inputs bb 196 768)
    (hpos : Wf2 pos_w 197 768) :
    Wf3 (ViT.ClassToken.call cls_w inputs) bb 197 768 ∧
    Wf3 (ViT.PositionEmbedding.call pos_w (ViT.ClassToken.call cls_w inputs))
      bb 197 768 := by
  have hbc : Wf3 (broadcastTo3 cls_w bb) bb 1 768 := broadcastTo3_wf hcls bb
  have h1 : Wf3 (ViT.ClassToken.call cls_w inputs) bb 197 768 := by
    simp only [ViT.ClassToken.call]
    rw [hin.1]
    constructor
    · rw [List.length_zipWith, hbc.1, hin.1]
      omega
    · intro m hm
      obtain ⟨cpart, hc, spart, hs, rfl⟩ := mem_zipWith_exists hm
      have hcwf := hbc.2 cpart hc
      have hswf := hin.2 spart hs
      constructor
      · rw [List.length_append, hcwf.1, hswf.1]
      · intro r hr
        rcases List.mem_append.mp hr with h | h
        · exact hcwf.2 r h
        · exact hswf.2 r h
  refine ⟨h1, ?_, ?_⟩
  · simp [ViT.PositionEmbedding.call, h1.1]
  · intro m hm
    simp only [ViT.PositionEmbedding.call, List.mem_map] at hm
    obtain ⟨seq, hseq, rfl⟩ := hm
    exact addMat_wf (h1.2 seq hseq) hpos

/-- Witness for C8 at a concrete zero batch of shape (4, 196, 768). -/
theorem C8_witness :
    Wf3 (ViT.ClassToken.call
      (List.replicate 1 (List.replicate 1 (List.replicate 768 (0:ℚ))))
      (List.replicate 4 (List.replicate 196 (List.replicate 768 (0:ℚ))))) 4 197 768 ∧
    Wf3 (ViT.PositionEmbedding.call (List.replicate 197 (List.replicate 768 (0:ℚ)))
      (ViT.ClassToken.call
        (List.replicate 1 (List.replicate 1 (List.replicate 768 (0:ℚ))))
        (List.replicate 4 (List.replicate 196 (List.replicate 768 (0:ℚ)))))) 4 197 768 :=
  C8_class_token_then_position_embedding _ _ _ 4
    (wf3_replicate 1 1 768) (wf3_replicate 4 196 768) (wf2_replicate 197 768)

namespace PVT

theorem PatchEmbedding.init_eq_some {img ps emb : Nat} {cfg : PatchCfg} :
    PatchEmbedding.init img ps emb = some cfg ↔
      img % ps = 0 ∧ cfg = ⟨img, ps, emb, img / ps, img / ps, (img / ps) * (img / ps)⟩ := by
  unfold PatchEmbedding.init
  split
  case isTrue h =>
    constructor
    · intro heq
      exact ⟨h, (Option.some_inj.mp heq).symm⟩
    · rintro ⟨-, rfl⟩
      rfl
  case isFalse h =>
    constructor
    · intro heq
      cases heq
    · rintro ⟨h2, -⟩
      exact absurd h2 h

end PVT

/-- C9 counterexample: the claim asserts construction requires img_size
divisible by 8, 16 and 32; but the stage asserts check evenness of the
floor divisions `img_size//4`, `img_size//8`, `img_size//16`, so
`img_size = 33`, `patch_size = 1` constructs successfully although 33 is
not divisible by 8. -/
theorem C9_counterexample :
    (PVT.PyramidVisionTransformer.initPatchEmbeds 33 1 64 128 256 512).isSome = true ∧
    ¬ (8 ∣ 33) := by
  refine ⟨?_, by decide⟩
  with_unfolding_all decide

/-- C9 amended: stages 2, 3 and 4 of `PyramidVisionTransformer.__init__`
always use patch size 2 over input sizes `img_size//4`, `img_size//8` and
`img_size//16` (`src/PVT/pvt.py:185-188`); the `patch_size` parameter
enters only the stage-1 configuration, and construction succeeds exactly
when `img_size % patch_size == 0` and `img_size//4`, `img_size//8`,
`img_size//16` are all even. -/
theorem C9_stage_patch_embedding_configs (img ps e1 e2 e3 e4 : Nat) :
    (∀ p1 p2 p3 p4,
      PVT.PyramidVisionTransformer.initPatchEmbeds img ps e1 e2 e3 e4 =
        some (p1, p2, p3, p4) →
      p1 = ⟨img, ps, e1, img / ps, img / ps, (img / ps) * (img / ps)⟩ ∧
      p2 = ⟨img / 4, 2, e2, img / 4 / 2, img / 4 / 2, (img / 4 / 2) * (img / 4 / 2)⟩ ∧
      p3 = ⟨img / 8, 2, e3, img / 8 / 2, img / 8 / 2, (img / 8 / 2) * (img / 8 / 2)⟩ ∧
      p4 = ⟨img / 16, 2, e4, img / 16 / 2, img / 16 / 2,
            (img / 16 / 2) * (img / 16 / 2)⟩) ∧
    ((PVT.PyramidVisionTransformer.initPatchEmbeds img ps e1 e2 e3 e4).isSome = true ↔
      img % ps = 0 ∧ (img / 4) % 2 = 0 ∧ (img / 8) % 2 = 0 ∧ (img / 16) % 2 = 0) := by
  constructor
  · intro p1 p2 p3 p4 h
    simp only [PVT.PyramidVisionTransformer.initPatchEmbeds, Option.bind_eq_bind,
      Option.pure_def] at h
    rw [Option.bind_eq_some] at h
    obtain ⟨q1, hq1, h⟩ := h
    rw [Option.bind_eq_some] at h
    obtain ⟨q2, hq2, h⟩ := h
    rw [Option.bind_eq_some] at h
    obtain ⟨q3, hq3, h⟩ := h
    rw [Option.bind_eq_some] at h
    obtain ⟨q4, hq4, h⟩ := h
    obtain ⟨-, rfl⟩ := PVT.PatchEmbedding.init_eq_some.mp hq1
    obtain ⟨-, rfl⟩ := PVT.PatchEmbedding.init_eq_some.mp hq2
    obtain ⟨-, rfl⟩ := PVT.PatchEmbedding.init_eq_some.mp hq3
    obtain ⟨-, rfl⟩ := PVT.PatchEmbedding.init_eq_some.mp hq4
    injection h with h
    cases h
    exact ⟨rfl, rfl, rfl, rfl⟩
  · constructor
    · intro h
      rw [Option.isSome_iff_exists] at h
      obtain ⟨⟨p1, p2, p3, p4⟩, h⟩ := h
      simp only [PVT.PyramidVisionTransformer.initPatchEmbeds, Option.bind_eq_bind,
        Option.pure_def] at h
      rw [Option.bind_eq_some] at h
      obtain ⟨q1, hq1, h⟩ := h
      rw [Option.bind_eq_some] at h
      obtain ⟨q2, hq2, h⟩ := h
      rw [Option.bind_eq_some] at h
      obtain ⟨q3, hq3, h⟩ := h
      rw [Option.bind_eq_some] at h
      obtain ⟨q4, hq4, -⟩ := h
      exact ⟨(PVT.PatchEmbedding.init_eq_some.mp hq1).1,
        (PVT.PatchEmbedding.init_eq_some.mp hq2).1,
        (PVT.PatchEmbedding.init_eq_some.mp hq3).1,
        (PVT.PatchEmbedding.init_eq_some.mp hq4).1⟩
    · rintro ⟨h1, h2, h3, h4⟩
      simp [PVT.PyramidVisionTransformer.initPatchEmbeds, PVT.PatchEmbedding.init,
        h1, h2, h3, h4]

/-- Witness for C9 (amended) at the default configuration
(img_size 224, patch_size 4). -/
theorem C9_witness :
    ((224 : Nat) % 4 = 0 ∧ (224 / 4) % 2 = 0 ∧ (224 / 8) % 2 = 0 ∧ (224 / 16) % 2 = 0) ∧
    ((⟨224, 4, 64, 56, 56, 3136⟩ : PVT.PatchCfg) =
        ⟨224, 4, 64, 224 / 4, 224 / 4, (224 / 4) * (224 / 4)⟩ ∧
      (⟨56, 2, 128, 28, 28, 784⟩ : PVT.PatchCfg) =
        ⟨224 / 4, 2, 128, 224 / 4 / 2, 224 / 4 / 2, (224 / 4 / 2) * (224 / 4 / 2)⟩ ∧
      (⟨28, 2, 256, 14, 14, 196⟩ : PVT.PatchCfg) =
        ⟨224 / 8, 2, 256, 224 / 8 / 2, 224 / 8 / 2, (224 / 8 / 2) * (224 / 8 / 2)⟩ ∧
      (⟨14, 2, 512, 7, 7, 49⟩ : PVT.PatchCfg) =
        ⟨224 / 16, 2, 512, 224 / 16 / 2, 224 / 16 / 2,
          (224 / 16 / 2) * (224 / 16 / 2)⟩) :=
  ⟨(C9_stage_patch_embedding_configs 224 4 64 128 256 512).2.mp rfl,
   (C9_stage_patch_embedding_configs 224 4 64 128 256 512).1
      ⟨224, 4, 64, 56, 56, 3136⟩ ⟨56, 2, 128, 28, 28, 784⟩
      ⟨28, 2, 256, 14, 14, 196⟩ ⟨14, 2, 512, 7, 7, 49⟩ rfl⟩

/-- C7: a default-configuration PyramidVisionTransformer maps any batch of
224×224×3 images to a batch of logits with one row per input and 1000
entries per row; the head's width always equals the configured
`num_classes` (`src/PVT/pvt.py:220,223-288`). -/
theorem C7_default_pvt_output_shape (m : PVT.PVTModel) (e : ℚ → ℚ) (inputs : List T3)
    (hm : m.DefaultShaped) (hin : ∀ img ∈ inputs, Wf3 img 224 224 3) :
    ∃ ys, (PVT.PyramidVisionTransformer.call m e inputs).1 = some ys ∧
      ys.length = inputs.length ∧ ∀ y ∈ ys, y.length = 1000 := by
  have hnc := hm.1
  have hall : ∀ t ∈ inputs,
      ∃ y, PVT.PyramidVisionTransformer.forwardOne m e t = some y ∧ y.length = 1000 := by
    intro t ht
    obtain ⟨y, hy, hlen⟩ := PVT.forwardOne_some hm (hin t ht)
    exact ⟨y, hy, by rw [hlen, hnc]⟩
  obtain ⟨ys, hys, hlen, hP⟩ := PVT.batchMap_some hall
  exact ⟨ys, hys, hlen, hP⟩

/-- Zero-initialized built patch embedding with the given configuration. -/
def zeroPatchEmbed (i p emb cin : Nat) : PVT.PatchEmbed :=
  { cfg := { img_size := i, patch_size := p, embedding_dim := emb,
             hh := i / p, ww := i / p, num_patches := (i / p) * (i / p) },
    w := { projK := List.replicate p (List.replicate p (List.replicate cin
             (List.replicate emb (0:ℚ)))),
           projB := [], normG := [], normB := [], rsqrt := fun _ => 1 } }

/-- Zero-initialized built PVT attention layer. -/
def zeroAttn (dim heads sr : Nat) : PVT.Attn :=
  { cfg := { dim := dim, num_heads := heads, head_dim := dim / heads, sr_ratio := sr },
    w := { scale := 1, qW := [], qB := [], kvW := [], kvB := [], projW := [], projB := [],
           srK := List.replicate sr (List.replicate sr (List.replicate dim ([] : Vec))),
           srB := [], normG := [], normB := [], rsqrt := fun _ => 1 } }

/-- Zero-initialized transformer block. -/
def zeroBlock (dim heads sr : Nat) : PVT.Block :=
  { norm1G := [], norm1B := [], rsqrt1 := fun _ => 1, attention := zeroAttn dim heads sr,
    norm2G := [], norm2B := [], rsqrt2 := fun _ => 1,
    mlp := { hidden_features := dim * 4, out_features := dim, fc1W := [], fc1B := [],
             fc2W := [], fc2B := [], act := id } }

/-- Zero-initialized default-configuration PyramidVisionTransformer. -/
def c7Model : PVT.PVTModel :=
  { num_classes := 1000,
    patch_embed1 := zeroPatchEmbed 224 4 64 3,
    patch_embed2 := zeroPatchEmbed 56 2 128 64,
    patch_embed3 := zeroPatchEmbed 28 2 256 128,
    patch_embed4 := zeroPatchEmbed 14 2 512 256,
    pos_embed1 := List.replicate 3136 (List.replicate 64 (0:ℚ)),
    pos_embed2 := List.replicate 784 (List.replicate 128 (0:ℚ)),
    pos_embed3 := List.replicate 196 (List.replicate 256 (0:ℚ)),
    pos_embed4 := List.replicate 50 (List.replicate 512 (0:ℚ)),
    block1 := List.replicate 3 (zeroBlock 64 1 8),
    block2 := List.replicate 4 (zeroBlock 128 2 4),
    block3 := List.replicate 6 (zeroBlock 256 4 2),
    block4 := List.replicate 3 (zeroBlock 512 8 1),
    normG := [], normB := [], rsqrtF := fun _ => 1,
    cls_token := [[List.replicate 512 (0:ℚ)]],
    denseW := [], denseB := [] }

set_option maxRecDepth 4000 in
theorem c7Model_defaultShaped : c7Model.DefaultShaped := by
  refine ⟨rfl, rfl, rfl, rfl, rfl, rfl, rfl, rfl, rfl,
    wf2_replicate 3136 64, wf2_replicate 784 128, wf2_replicate 196 256,
    wf2_replicate 50 512, ?_, ?_, ?_, ?_,
    by simp [show c7Model.cls_token = [[List.replicate 512 (0:ℚ)]] from rfl]⟩
  · intro b hb
    rw [List.eq_of_mem_replicate hb]
    exact ⟨rfl, by decide, rfl, fun _ => ⟨by decide, by decide, by decide, by decide⟩⟩
  · intro b hb
    rw [List.eq_of_mem_replicate hb]
    exact ⟨rfl, by decide, rfl, fun _ => ⟨by decide, by decide, by decide, by decide⟩⟩
  · intro b hb
    rw [List.eq_of_mem_replicate hb]
    exact ⟨rfl, by decide, rfl, fun _ => ⟨by decide, by decide, by decide, by decide⟩⟩
  · intro b hb
    rw [List.eq_of_mem_replicate hb]
    exact ⟨rfl, by decide, rfl, fun hgt => absurd hgt (by decide)⟩

/-- Concrete batch of four zero images of shape 224×224×3. -/
def c7Inputs : List T3 :=
  List.replicate 4 (List.replicate 224 (List.replicate 224 (List.replicate 3 (0:ℚ))))

/-- Witness for C7 at the zero default model on a batch of four images. -/
theorem C7_witness :
    c7Inputs.length = 4 ∧
    ∃ ys, (PVT.PyramidVisionTransformer.call c7Model (fun _ => 1) c7Inputs).1 = some ys ∧
      ys.length = c7Inputs.length ∧ ∀ y ∈ ys, y.length = 1000 :=
  ⟨by simp [c7Inputs],
   C7_default_pvt_output_shape c7Model (fun _ => 1) c7Inputs c7Model_defaultShaped
     (by
       intro img h
       rw [List.eq_of_mem_replicate h]
       exact wf3_replicate 224 224 3)⟩
